/-
Verification of the AdaptiveMindscape core (server/neural-engine.ts and the
reflection orchestrator in server/routes.ts) against its natural-language
specification.  The TypeScript source is shallowly embedded: strings are
lists of characters, the JS `Map` vocabulary is an association list with
overwrite-on-set semantics, JS numbers are exact rationals (with an explicit
option type where the source can produce NaN through implicit coercions),
and the asynchronous reflection loop is a pure trace-building function
parameterised by a persistence-failure schedule and by the cycle index at
which a stop request is first observed.
-/
import Mathlib

namespace AdaptiveMindscape

/-! ## Tokenizer (NeuralEngine.getSubwords / tokenizeText) -/

/-- Inner `for (let len = min(remaining.length, 8); len > 0; len--)` search of
`getSubwords`: the fuel argument is the current candidate length; the loop
breaks at the first length whose prefix is a known vocabulary entry, or at
length 1. -/
def findLen (has : List Char → Bool) (remaining : List Char) : Nat → Nat
  | 0 => 1
  | n + 1 =>
    if has (remaining.take (n + 1)) then n + 1
    else if n = 0 then 1
    else findLen has remaining n

/-- The `while (remaining.length > 0)` loop of `getSubwords`, fuelled by the
length of the word (each iteration consumes at least one character, so a fuel
equal to the initial length never runs out). -/
def getSubwordsLoop (has : List Char → Bool) : Nat → List Char → List (List Char)
  | 0, _ => []
  | _, [] => []
  | fuel + 1, remaining =>
    let len := findLen has remaining (min remaining.length 8)
    remaining.take len :: getSubwordsLoop has fuel (remaining.drop len)

/-- `NeuralEngine.getSubwords`: words of length ≤ 3 are a single subword;
longer words are segmented greedily by longest known prefix (at most 8
characters), falling back to a single character. -/
def getSubwords (has : List Char → Bool) (word : List Char) : List (List Char) :=
  if word.length ≤ 3 then [word] else getSubwordsLoop has word.length word

/-- JS `\s` test for the characters the repository's texts can contain. -/
def isWsChar (c : Char) : Bool :=
  c = ' ' || c = '\t' || c = '\n' || c = '\r' || c = '\x0b' || c = '\x0c'

/-- `String.prototype.split(/\s+/)` walker.  The state is `some cur` while
inside a word (characters accumulated reversed in `cur`) and `none` while
inside a whitespace run; a word is emitted when a run starts, and a final
(possibly empty) word is emitted at the end of the input. -/
def splitWsGo : Option (List Char) → List Char → List (List Char)
  | some cur, [] => [cur.reverse]
  | none, [] => [[]]
  | some cur, c :: rest =>
    if isWsChar c then cur.reverse :: splitWsGo none rest
    else splitWsGo (some (c :: cur)) rest
  | none, c :: rest =>
    if isWsChar c then splitWsGo none rest
    else splitWsGo (some [c]) rest

/-- JS `text.split(/\s+/)` (note: `"".split(/\s+/)` is `[""]`, and leading or
trailing whitespace contributes an empty token). -/
def splitWs (cs : List Char) : List (List Char) := splitWsGo (some []) cs

/-- JS `text.toLowerCase()` on the character-list model. -/
def toLowerList (cs : List Char) : List Char := cs.map Char.toLower

/-- The session vocabulary: a JS `Map` from subword to token id, modelled as
an association list in insertion order. -/
abbrev Vocab := List (List Char × Nat)

/-- `Map.prototype.get`. -/
def vocabGet : Vocab → List Char → Option Nat
  | [], _ => none
  | (k, i) :: rest, s => if k = s then some i else vocabGet rest s

/-- `Map.prototype.set`: overwrite the existing key in place, else append. -/
def vocabSet : Vocab → List Char → Nat → Vocab
  | [], s, n => [(s, n)]
  | (k, i) :: rest, s, n =>
    if k = s then (s, n) :: rest else (k, i) :: vocabSet rest s n

/-- `Map.prototype.size` (keys are unique in every reachable state). -/
def vocabSize (v : Vocab) : Nat := v.length

/-- `Map.prototype.has`. -/
def vocabHas (v : Vocab) (s : List Char) : Bool := (vocabGet v s).isSome

/-- One subword of `tokenizeText`'s inner loop.  Faithful to the source's
`if (!tokenId)`: a stored id of `0` is falsy, so it is treated as unseen and
the subword is re-registered under the next id (`vocabulary.size`), with a
`storage.createTokenVocabulary` call (counted by the third component). -/
def processSubword (v : Vocab) (s : List Char) : Vocab × Nat × Nat :=
  match vocabGet v s with
  | some (n + 1) => (v, n + 1, 0)
  | _ => (vocabSet v s (vocabSize v), vocabSize v, 1)

/-- The inner `for (const subword of subwords)` loop of `tokenizeText`. -/
def processSubwords (v : Vocab) : List (List Char) → Vocab × List Nat × Nat
  | [] => (v, [], 0)
  | s :: rest =>
    let r1 := processSubword v s
    let r2 := processSubwords r1.1 rest
    (r2.1, r1.2.1 :: r2.2.1, r1.2.2 + r2.2.2)

/-- The outer `for (const word of words)` loop of `tokenizeText`; each word is
segmented against the vocabulary as of the moment it is processed. -/
def tokenizeWords (v : Vocab) : List (List Char) → Vocab × List Nat × Nat
  | [] => (v, [], 0)
  | w :: ws =>
    let sws := getSubwords (vocabHas v) w
    let r1 := processSubwords v sws
    let r2 := tokenizeWords r1.1 ws
    (r2.1, r1.2.1 ++ r2.2.1, r1.2.2 + r2.2.2)

/-- `NeuralEngine.tokenizeText`: lower-case, split on whitespace, tokenize
each word.  Returns (vocabulary, token ids, number of
`createTokenVocabulary` persistence calls). -/
def tokenizeText (v : Vocab) (text : List Char) : Vocab × List Nat × Nat :=
  tokenizeWords v (splitWs (toLowerList text))

/-- Every subword the tokenizer would produce for these words is already a
key of the (evolving) vocabulary. -/
def allKnown (v : Vocab) : List (List Char) → Bool
  | [] => true
  | w :: ws =>
    let sws := getSubwords (vocabHas v) w
    sws.all (vocabHas v) && allKnown (processSubwords v sws).1 ws

/-- Every subword of the text is already registered at the moment it is
processed. -/
def allKnownText (v : Vocab) (text : List Char) : Bool :=
  allKnown v (splitWs (toLowerList text))

/-! ## Loss (NeuralEngine.calculateLoss) -/

/-- JS `text.split(' ')`: split at every single space character, so
consecutive spaces yield empty tokens and `"".split(' ') = [""]`. -/
def splitSp : List Char → List (List Char)
  | [] => [[]]
  | c :: rest =>
    if c = ' ' then [] :: splitSp rest
    else
      match splitSp rest with
      | w :: ws => (c :: w) :: ws
      | [] => [[c]]

/-- The `for (let i = 0; i < maxLen; i++)` accumulation of `calculateLoss`;
out-of-range tokens read as `''` via the source's `|| ''` fallback. -/
def lossLoop (mt tt : List (List Char)) : Nat → ℚ
  | 0 => 0
  | i + 1 => lossLoop mt tt i + (if mt.getD i [] ≠ tt.getD i [] then 1 else 0)

/-- `NeuralEngine.calculateLoss`: mismatch count over the padded index range,
divided by the longer token count. -/
def calculateLoss (modelOutput gptTarget : List Char) : ℚ :=
  let modelTokens := splitSp modelOutput
  let targetTokens := splitSp gptTarget
  let maxLen := max modelTokens.length targetTokens.length
  lossLoop modelTokens targetTokens maxLen / maxLen

/-- Position-wise mismatch count of two token sequences, the shorter padded
with empty tokens (the Hamming distance of the specification). -/
def mism : List (List Char) → List (List Char) → ℚ
  | [], [] => 0
  | a :: xs, [] => (if a ≠ [] then 1 else 0) + mism xs []
  | [], b :: ys => (if b ≠ [] then 1 else 0) + mism [] ys
  | a :: xs, b :: ys => (if a ≠ b then 1 else 0) + mism xs ys

/-- Padded word-level Hamming distance of two token sequences, normalised by
the longer length. -/
def hammingPadded (xs ys : List (List Char)) : ℚ :=
  mism xs ys / max xs.length ys.length

/-- The loss exactly as the specification sentence reads: both strings split
on whitespace (runs), then the normalised padded Hamming distance. -/
def specLoss (modelOutput gptTarget : List Char) : ℚ :=
  hammingPadded (splitWs modelOutput) (splitWs gptTarget)

/-! ## Softmax (NeuralEngine.softmax) -/

/-- JS `Math.max(...logits)` for a non-empty vector. -/
noncomputable def maxLogit (logits : List ℝ) : ℝ :=
  logits.foldl max (logits.headD 0)

/-- `NeuralEngine.softmax`: numerically stable softmax — subtract the
maximum logit, exponentiate, normalise by the sum. -/
noncomputable def softmax (logits : List ℝ) : List ℝ :=
  let m := maxLogit logits
  let expLogits := logits.map fun l => Real.exp (l - m)
  let sumExp := expLogits.sum
  expLogits.map fun e => e / sumExp

/-! ## Weight update (NeuralEngine.updateWeights / calculateGradients) -/

/-- A JS value reachable at the `gradient` variable of the bias-update loop:
a number, an array of numbers, or `undefined`. -/
inductive JsVal where
  | num (q : ℚ)
  | arr (l : List ℚ)
  | undef
  deriving DecidableEq

/-- `gradients[layerName]` for the weight matrix: one sampled noise value per
entry (`rW i j` models `Math.random() - 0.5`), scaled by `loss * 0.01`. -/
def calcGradW (rW : Nat → Nat → ℚ) (loss : ℚ) (weights : List (List ℚ)) :
    List (List ℚ) :=
  weights.enum.map fun p =>
    (p.2.enum.map fun q => rW p.1 q.1 * loss * (1 / 100))

/-- The bias gradients as `calculateGradients` actually builds them: a 1-row
matrix `[biases.map(() => noise * loss * 0.01)]`. -/
def calcGradB (rB : Nat → ℚ) (loss : ℚ) (biases : List ℚ) : List (List ℚ) :=
  [biases.enum.map fun p => rB p.1 * loss * (1 / 100)]

/-- The weight half of `updateWeights`:
`layerWeights[i][j] -= learningRate * (layerGradients[i]?.[j] || 0)`. -/
def updateLayerWeights (lr : ℚ) (weights gradW : List (List ℚ)) :
    List (List ℚ) :=
  weights.enum.map fun p =>
    (p.2.enum.map fun q =>
      q.2 - lr * (((gradW.get? p.1).bind fun row => row.get? q.1).getD 0))

/-- `biasGradients[i] || 0` — an in-range index yields a row (an array, which
is truthy); an out-of-range index yields `undefined`, replaced by `0`. -/
def biasGradAt (biasGradients : List (List ℚ)) (i : Nat) : JsVal :=
  match biasGradients.get? i with
  | some row => .arr row
  | none => .num 0

/-- JS `learningRate * gradient` with implicit coercion: a number multiplies
directly; an array is coerced through its string — a one-element array
becomes that number, the empty array becomes 0, and a longer array becomes
NaN (modelled as `none`). -/
def jsMulNum (lr : ℚ) : JsVal → Option ℚ
  | .num q => some (lr * q)
  | .arr [] => some (lr * 0)
  | .arr [q] => some (lr * q)
  | .arr _ => none
  | .undef => none

/-- The bias half of `updateWeights`:
`biases[i] -= learningRate * (biasGradients[i] || 0)`; a NaN product makes
the stored bias NaN (`none`). -/
def updateLayerBiases (lr : ℚ) (biases : List ℚ)
    (biasGradients : List (List ℚ)) : List (Option ℚ) :=
  biases.enum.map fun p =>
    match jsMulNum lr (biasGradAt biasGradients p.1) with
    | some d => some (p.2 - d)
    | none => none

/-- One layer of `updateWeights`, gradients derived by `calculateGradients`
from the scalar loss and the sampled noise sources `rW`, `rB`. -/
def updateLayer (lr loss : ℚ) (rW : Nat → Nat → ℚ) (rB : Nat → ℚ)
    (weights : List (List ℚ)) (biases : List ℚ) :
    List (List ℚ) × List (Option ℚ) :=
  (updateLayerWeights lr weights (calcGradW rW loss weights),
   updateLayerBiases lr biases (calcGradB rB loss biases))

/-! ## Reflection orchestrator (routes.ts ReflectionEngine) -/

/-- The `type` tag of a persisted reflection row. -/
inductive RKind where
  | user_input
  | analysis
  | memory_recall
  | strategy
  | refinement
  | noise_injection
  deriving DecidableEq, Repr

/-- A persisted reflection row (cycle number and kind; content and metadata
carry no control flow). -/
structure Reflection where
  cycle : Nat
  kind : RKind
  deriving DecidableEq, Repr

/-- The storage operations the loop performs against durable state. -/
inductive StOp where
  | createReflection
  | getReflections
  | getRecentInsights
  | createMemoryInsight
  | createTokenVocab
  | createModelWeights
  | createTrainingBatch
  | createLearningMetrics
  | createGeneratedContent
  deriving DecidableEq, BEq

/-- Observable persisted/propagated outcome of one run of the loop:
reflection rows in creation order, memory-insight row count, whether a
completed GeneratedContent row was persisted, and how many errors the
neural-engine training step caught and swallowed. -/
structure RunState where
  refl : List Reflection
  insights : Nat
  content : Bool
  swallowed : Nat
  deriving DecidableEq, Repr

/-- `storage.createReflection`: on failure the error propagates carrying the
rows already persisted (durable writes are not retracted). -/
def emitReflection (F : StOp → Bool) (st : RunState) (c : Nat) (k : RKind) :
    Except RunState RunState :=
  if F .createReflection then .error st
  else .ok { st with refl := st.refl ++ [⟨c, k⟩] }

/-- `ReflectionEngine.performReflectionCycle`: read previous reflections and
recent insights, then persist analysis, memory_recall, strategy (cycle 1) or
refinement (later cycles), noise_injection iff `noiseLevel > 0`, then one
memory insight.  Any storage failure aborts the cycle at that point. -/
def performReflectionCycle (F : StOp → Bool) (noiseLevel : ℚ) (cycle : Nat)
    (st : RunState) : Except RunState RunState := do
  if F .getReflections then throw st
  if F .getRecentInsights then throw st
  let st ← emitReflection F st cycle .analysis
  let st ← emitReflection F st cycle .memory_recall
  let st ← emitReflection F st cycle
    (if cycle = 1 then .strategy else .refinement)
  let st ←
    if noiseLevel > 0 then emitReflection F st cycle .noise_injection
    else pure st
  if F .createMemoryInsight then throw st
  pure { st with insights := st.insights + 1 }

/-- The storage writes `NeuralEngine.trainStep` attempts, in order (token
vocabulary via tokenizeText, weight snapshots, the training batch, the
learning-metrics row); the first failure raises. -/
def trainStepInner (F : StOp → Bool) : Except Unit Unit := do
  if F .createTokenVocab then throw ()
  if F .createModelWeights then throw ()
  if F .createTrainingBatch then throw ()
  if F .createLearningMetrics then throw ()

/-- `NeuralEngine.trainStep`: its body is wrapped in `try/catch` that only
logs, so every failure is swallowed and the loop continues. -/
def trainStep (F : StOp → Bool) (st : RunState) : RunState :=
  match trainStepInner F with
  | .ok _ => st
  | .error _ => { st with swallowed := st.swallowed + 1 }

/-- The contiguous cycle indices `c, c+1, ..., c+n-1`. -/
def cycleList (c : Nat) : Nat → List Nat
  | 0 => []
  | n + 1 => c :: cycleList (c + 1) n

/-- The `for (let cycle = 1; cycle <= reflectionCycles && this.isGenerating;
cycle++)` loop: `stopObs = some k` means the shared `isGenerating` flag reads
false at the top-of-cycle checks with index ≥ k (a stop request is observed
only there); `none` means no stop request ever lands. -/
def runCycles (F : StOp → Bool) (noiseLevel : ℚ) (stopObs : Option Nat) :
    List Nat → RunState → Except RunState RunState
  | [], st => pure st
  | c :: cs, st =>
    if (match stopObs with | none => true | some k => decide (c < k)) then do
      let st ← performReflectionCycle F noiseLevel c st
      let st := trainStep F st
      runCycles F noiseLevel stopObs cs st
    else pure st

/-- `ReflectionEngine.startReflectionLoop` with the loop caller's view:
persist the cycle-0 user_input reflection, run the cycles, then finalize
(`generateFinalContent` re-reads the reflections and persists a completed
GeneratedContent row); errors reaching the outer catch are re-thrown. -/
def startReflectionLoop (F : StOp → Bool) (sessionExists : Bool) (N : Nat)
    (noiseLevel : ℚ) (stopObs : Option Nat) : Except RunState RunState := do
  if !sessionExists then throw ⟨[], 0, false, 0⟩
  let st ← emitReflection F ⟨[], 0, false, 0⟩ 0 .user_input
  let st ← runCycles F noiseLevel stopObs (cycleList 1 N) st
  if F .getReflections then throw st
  if F .createGeneratedContent then throw st
  pure { st with content := true }

/-- The mutable fields of the `ReflectionEngine` instance shared by all
requests. -/
structure EngineCtl where
  currentCycle : Nat
  isGenerating : Bool
  deriving DecidableEq, Repr

/-- The entry of `startReflectionLoop` (routes.ts lines 444–454): the only
guard is that the session exists; the shared engine state is then reset
unconditionally, whether or not a loop is already running. -/
def startEntry (sessionExists : Bool) (_ctl : EngineCtl) :
    Except String EngineCtl :=
  if !sessionExists then .error "Session not found"
  else .ok ⟨0, true⟩

/-- The reflection group the specification prescribes for one cycle. -/
def specGroup (noiseLevel : ℚ) (c : Nat) : List Reflection :=
  [⟨c, .analysis⟩, ⟨c, .memory_recall⟩,
   ⟨c, if c = 1 then .strategy else .refinement⟩]
  ++ (if noiseLevel > 0 then [⟨c, .noise_injection⟩] else [])

/-- The full reflection trace the specification prescribes for an unstopped
run of N cycles. -/
def specRun (N : Nat) (noiseLevel : ℚ) : List Reflection :=
  ⟨0, .user_input⟩ :: (cycleList 1 N).flatMap (specGroup noiseLevel)

/-- The reflection trace the specification prescribes when the stop flag is
first observed at the top of cycle k. -/
def specStopRun (N : Nat) (noiseLevel : ℚ) (k : Nat) : List Reflection :=
  ⟨0, .user_input⟩ :: (cycleList 1 (min N (k - 1))).flatMap (specGroup noiseLevel)

/-! ## Lemmas about the tokenizer's subword segmentation -/

theorem findLen_pos (has : List Char → Bool) (r : List Char) :
    ∀ n, 1 ≤ findLen has r n := by
  intro n
  induction n with
  | zero => simp [findLen]
  | succ n ih =>
    simp only [findLen]
    split
    · omega
    · split
      · omega
      · exact ih

theorem findLen_le (has : List Char → Bool) (r : List Char) :
    ∀ n, findLen has r n ≤ max n 1 := by
  intro n
  induction n with
  | zero => simp [findLen]
  | succ n ih =>
    simp only [findLen]
    split
    · omega
    · split
      · omega
      · omega

theorem getSubwordsLoop_flatten (has : List Char → Bool) :
    ∀ fuel r, r.length ≤ fuel → (getSubwordsLoop has fuel r).flatten = r := by
  intro fuel
  induction fuel with
  | zero =>
    intro r hr
    have : r = [] := List.eq_nil_of_length_eq_zero (Nat.le_zero.1 hr)
    subst this
    simp [getSubwordsLoop]
  | succ fuel ih =>
    intro r hr
    match r with
    | [] => simp [getSubwordsLoop]
    | c :: rest =>
      simp only [getSubwordsLoop, List.flatten_cons]
      generalize hL : findLen has (c :: rest) (min (c :: rest).length 8) = len
      have hpos : 1 ≤ len := hL ▸ findLen_pos has (c :: rest) _
      have hd : ((c :: rest).drop len).length ≤ fuel := by
        simp only [List.length_drop, List.length_cons]
        simp only [List.length_cons] at hr
        omega
      rw [ih _ hd, List.take_append_drop]

theorem getSubwordsLoop_shape (has : List Char → Bool) :
    ∀ fuel r s, s ∈ getSubwordsLoop has fuel r → s ≠ [] ∧ s.length ≤ 8 := by
  intro fuel
  induction fuel with
  | zero => intro r s hs; simp [getSubwordsLoop] at hs
  | succ fuel ih =>
    intro r s hs
    match r with
    | [] => simp [getSubwordsLoop] at hs
    | c :: rest =>
      simp only [getSubwordsLoop, List.mem_cons] at hs
      rcases hs with hs | hs
      · subst hs
        generalize hL : findLen has (c :: rest) (min (c :: rest).length 8) = len
        have hpos : 1 ≤ len := hL ▸ findLen_pos has (c :: rest) _
        have hle : len ≤ max (min (c :: rest).length 8) 1 :=
          hL ▸ findLen_le has (c :: rest) _
        have h1 : 1 ≤ (c :: rest).length := by simp
        constructor
        · apply List.ne_nil_of_length_pos
          simp only [List.length_take]
          omega
        · simp only [List.length_take]
          omega
      · exact ih _ _ hs

theorem getSubwordsLoop_fuel_pair (has : List Char → Bool) :
    ∀ f1 f2 r, r.length ≤ f1 → r.length ≤ f2 →
      getSubwordsLoop has f1 r = getSubwordsLoop has f2 r := by
  intro f1
  induction f1 with
  | zero =>
    intro f2 r hr _
    have : r = [] := List.eq_nil_of_length_eq_zero (Nat.le_zero.1 hr)
    subst this
    cases f2 <;> simp [getSubwordsLoop]
  | succ f1 ih =>
    intro f2 r hr1 hr2
    match r with
    | [] => cases f2 <;> simp [getSubwordsLoop]
    | c :: rest =>
      have hf2 : 1 ≤ f2 := by
        simp only [List.length_cons] at hr2; omega
      match f2, hf2 with
      | g + 1, _ =>
        simp only [getSubwordsLoop]
        generalize hL : findLen has (c :: rest) (min (c :: rest).length 8) = len
        have hpos : 1 ≤ len := hL ▸ findLen_pos has (c :: rest) _
        congr 1
        apply ih
        · simp only [List.length_drop, List.length_cons]
          simp only [List.length_cons] at hr1
          omega
        · simp only [List.length_drop, List.length_cons]
          simp only [List.length_cons] at hr2
          omega

/-- C10: for every non-empty word, `getSubwords` terminates (the fuelled
loop is independent of any fuel at least the word length, because every
iteration consumes at least one character), every returned subword is
non-empty and at most 8 characters, and the concatenation of the returned
subwords is the input word. -/
theorem getSubwords_terminates_covers (has : List Char → Bool)
    (w : List Char) (hw : w ≠ []) :
    (∀ fuel, w.length ≤ fuel →
      getSubwordsLoop has fuel w = getSubwordsLoop has w.length w) ∧
    (∀ s ∈ getSubwords has w, s ≠ [] ∧ s.length ≤ 8) ∧
    (getSubwords has w).flatten = w := by
  refine ⟨fun fuel hf => getSubwordsLoop_fuel_pair has fuel w.length w hf le_rfl,
    ?_, ?_⟩
  · intro s hs
    unfold getSubwords at hs
    split at hs
    · simp only [List.mem_singleton] at hs
      subst hs
      exact ⟨hw, by omega⟩
    · exact getSubwordsLoop_shape has _ _ _ hs
  · unfold getSubwords
    split
    · simp
    · exact getSubwordsLoop_flatten has _ _ le_rfl

/-- Witness for C10 at the concrete word "hello" with an empty vocabulary. -/
theorem getSubwords_terminates_covers_witness :
    ("hello".toList ≠ []) ∧
      (getSubwords (fun _ => false) "hello".toList).flatten = "hello".toList :=
  ⟨by decide,
   (getSubwords_terminates_covers (fun _ => false) "hello".toList (by decide)).2.2⟩

/-! ## Softmax is a probability distribution -/

theorem list_sum_div (l : List ℝ) (s : ℝ) :
    (l.map fun x => x / s).sum = l.sum / s := by
  induction l with
  | nil => simp
  | cons a t ih => simp [ih, add_div]

/-- C9: for every non-empty logit vector (including all-equal logits),
`softmax` returns a valid probability distribution over the reals: every
entry is nonnegative and the entries sum to exactly 1. -/
theorem softmax_prob_dist (logits : List ℝ) (h : logits ≠ []) :
    (∀ x ∈ softmax logits, 0 ≤ x) ∧ (softmax logits).sum = 1 := by
  unfold softmax
  have hne : (logits.map fun l => Real.exp (l - maxLogit logits)) ≠ [] := by
    simpa using h
  have hpos : 0 < (logits.map fun l => Real.exp (l - maxLogit logits)).sum := by
    apply List.sum_pos
    · intro x hx
      obtain ⟨l, _, rfl⟩ := List.mem_map.1 hx
      exact Real.exp_pos _
    · exact hne
  constructor
  · intro x hx
    obtain ⟨e, he, rfl⟩ := List.mem_map.1 hx
    obtain ⟨l, _, rfl⟩ := List.mem_map.1 he
    exact div_nonneg (Real.exp_pos _).le hpos.le
  · rw [list_sum_div, div_self hpos.ne']

/-- Witness for C9 at the all-equal logit vector [0, 0]. -/
theorem softmax_prob_dist_witness :
    (∀ x ∈ softmax [(0 : ℝ), 0], 0 ≤ x) ∧ (softmax [(0 : ℝ), 0]).sum = 1 :=
  softmax_prob_dist [0, 0] (by simp)


/-! ## Vocabulary lemmas for tokenizer idempotence -/

theorem vocabGet_set_self (v : Vocab) (s : List Char) (n : Nat) :
    vocabGet (vocabSet v s n) s = some n := by
  induction v with
  | nil => simp [vocabSet, vocabGet]
  | cons kv rest ih =>
    obtain ⟨k, i⟩ := kv
    by_cases h : k = s
    · simp [vocabSet, h, vocabGet]
    · simp [vocabSet, h, vocabGet, ih]

theorem vocabGet_set_other (v : Vocab) (s t : List Char) (n : Nat)
    (hst : s ≠ t) : vocabGet (vocabSet v t n) s = vocabGet v s := by
  have hts : ¬(t = s) := fun he => hst he.symm
  induction v with
  | nil => simp [vocabSet, vocabGet, hts]
  | cons kv rest ih =>
    obtain ⟨k, i⟩ := kv
    by_cases h : k = t
    · subst h
      simp [vocabSet, vocabGet, hts]
    · simp only [vocabSet, if_neg h, vocabGet, ih]

theorem vocabSet_length_mem (v : Vocab) (s : List Char) (n : Nat)
    (h : vocabHas v s = true) : (vocabSet v s n).length = v.length := by
  induction v with
  | nil => simp [vocabHas, vocabGet] at h
  | cons kv rest ih =>
    obtain ⟨k, i⟩ := kv
    by_cases hk : k = s
    · simp [vocabSet, hk]
    · have h2 : vocabHas rest s = true := by
        simpa [vocabHas, vocabGet, hk] using h
      simp [vocabSet, hk, ih h2]

theorem vocabHas_set_of_mem (v : Vocab) (t : List Char) (n : Nat)
    (h : vocabHas v t = true) (x : List Char) :
    vocabHas (vocabSet v t n) x = vocabHas v x := by
  by_cases hx : x = t
  · subst hx
    simp [vocabHas, vocabGet_set_self]
    simpa [vocabHas] using h
  · simp [vocabHas, vocabGet_set_other _ _ _ _ hx]

theorem processSubword_stable (v : Vocab) (t s : List Char) (id : Nat)
    (hs : vocabGet v s = some id) (hid : 1 ≤ id) :
    vocabGet (processSubword v t).1 s = some id := by
  cases hvt : vocabGet v t with
  | none =>
    have hst : s ≠ t := by
      intro h; rw [h, hvt] at hs; exact Option.noConfusion hs
    simp [processSubword, hvt, vocabGet_set_other _ _ _ _ hst, hs]
  | some j =>
    cases j with
    | zero =>
      have hst : s ≠ t := by
        intro h
        rw [h, hvt] at hs
        injection hs with h0
        omega
      simp [processSubword, hvt, vocabGet_set_other _ _ _ _ hst, hs]
    | succ j => simp [processSubword, hvt, hs]

theorem processSubword_establish (v : Vocab) (s : List Char)
    (h : vocabHas v s = true) (hv : 1 ≤ vocabSize v) :
    vocabGet (processSubword v s).1 s = some (processSubword v s).2.1 ∧
      1 ≤ (processSubword v s).2.1 := by
  cases hvs : vocabGet v s with
  | none => simp [vocabHas, hvs] at h
  | some j =>
    cases j with
    | zero =>
      constructor
      · simp [processSubword, hvs, vocabGet_set_self]
      · simpa [processSubword, hvs] using hv
    | succ j =>
      constructor
      · simp [processSubword, hvs]
      · simp [processSubword, hvs]

theorem processSubword_has (v : Vocab) (s : List Char)
    (h : vocabHas v s = true) (x : List Char) :
    vocabHas (processSubword v s).1 x = vocabHas v x := by
  cases hvs : vocabGet v s with
  | none => simp [vocabHas, hvs] at h
  | some j =>
    cases j with
    | zero => simp [processSubword, hvs, vocabHas_set_of_mem v s _ h x]
    | succ j => simp [processSubword, hvs]

theorem processSubword_size (v : Vocab) (s : List Char)
    (h : vocabHas v s = true) :
    vocabSize (processSubword v s).1 = vocabSize v := by
  cases hvs : vocabGet v s with
  | none => simp [vocabHas, hvs] at h
  | some j =>
    cases j with
    | zero => simp [processSubword, hvs, vocabSize, vocabSet_length_mem v s _ h]
    | succ j => simp [processSubword, hvs]

theorem processSubwords_stable (sws : List (List Char)) :
    ∀ (v : Vocab) (s : List Char) (id : Nat),
      vocabGet v s = some id → 1 ≤ id →
        vocabGet (processSubwords v sws).1 s = some id := by
  induction sws with
  | nil => intro v s id hs _; exact hs
  | cons t ts ih =>
    intro v s id hs hid
    simp only [processSubwords]
    exact ih _ _ _ (processSubword_stable v t s id hs hid) hid

theorem processSubwords_has (sws : List (List Char)) :
    ∀ (v : Vocab), (∀ t ∈ sws, vocabHas v t = true) →
      ∀ x, vocabHas (processSubwords v sws).1 x = vocabHas v x := by
  induction sws with
  | nil => intro v _ x; rfl
  | cons t ts ih =>
    intro v h x
    have ht : vocabHas v t = true := h t (List.mem_cons_self t ts)
    have hstep := processSubword_has v t ht
    simp only [processSubwords]
    rw [ih _ (fun u hu => by rw [hstep u]; exact h u (List.mem_cons_of_mem t hu)) x,
      hstep x]

theorem processSubwords_size (sws : List (List Char)) :
    ∀ (v : Vocab), (∀ t ∈ sws, vocabHas v t = true) →
      vocabSize (processSubwords v sws).1 = vocabSize v := by
  induction sws with
  | nil => intro v _; rfl
  | cons t ts ih =>
    intro v h
    have ht : vocabHas v t = true := h t (List.mem_cons_self t ts)
    have hstep := processSubword_has v t ht
    simp only [processSubwords]
    rw [ih _ (fun u hu => by rw [hstep u]; exact h u (List.mem_cons_of_mem t hu)),
      processSubword_size v t ht]

/-- Every listed subword is stored in the vocabulary under the corresponding
id of the list, and that id is truthy (nonzero). -/
def seenAll (v : Vocab) : List (List Char) → List Nat → Prop
  | [], [] => True
  | s :: ss, id :: ids => vocabGet v s = some id ∧ 1 ≤ id ∧ seenAll v ss ids
  | _, _ => False

theorem seenAll_mono (v w : Vocab)
    (hmono : ∀ s id, vocabGet v s = some id → 1 ≤ id →
      vocabGet w s = some id) :
    ∀ sws ids, seenAll v sws ids → seenAll w sws ids := by
  intro sws
  induction sws with
  | nil =>
    intro ids h
    cases ids with
    | nil => trivial
    | cons i is => exact absurd h (by simp [seenAll])
  | cons s ss ih =>
    intro ids h
    cases ids with
    | nil => exact absurd h (by simp [seenAll])
    | cons id ids =>
      obtain ⟨h1, h2, h3⟩ := h
      exact ⟨hmono _ _ h1 h2, h2, ih _ h3⟩

theorem processSubwords_establish (sws : List (List Char)) :
    ∀ (v : Vocab), (∀ t ∈ sws, vocabHas v t = true) → 1 ≤ vocabSize v →
      seenAll (processSubwords v sws).1 sws (processSubwords v sws).2.1 := by
  induction sws with
  | nil => intro v _ _; trivial
  | cons s ss ih =>
    intro v h hv
    have hs : vocabHas v s = true := h s (List.mem_cons_self s ss)
    obtain ⟨he1, he2⟩ := processSubword_establish v s hs hv
    have hhas := processSubword_has v s hs
    have hsz := processSubword_size v s hs
    have hrest : ∀ t ∈ ss, vocabHas (processSubword v s).1 t = true :=
      fun u hu => by rw [hhas u]; exact h u (List.mem_cons_of_mem s hu)
    have hseen := ih (processSubword v s).1 hrest (hsz ▸ hv)
    have hst := processSubwords_stable ss (processSubword v s).1 s
      (processSubword v s).2.1 he1 he2
    simp only [processSubwords]
    exact ⟨hst, he2, hseen⟩

theorem seenAll_run (sws : List (List Char)) :
    ∀ (v : Vocab) (ids : List Nat), seenAll v sws ids →
      processSubwords v sws = (v, ids, 0) := by
  induction sws with
  | nil =>
    intro v ids h
    cases ids with
    | nil => rfl
    | cons i is => exact absurd h (by simp [seenAll])
  | cons s ss ih =>
    intro v ids h
    cases ids with
    | nil => exact absurd h (by simp [seenAll])
    | cons id ids =>
      obtain ⟨h1, h2, h3⟩ := h
      have hw : processSubword v s = (v, id, 0) := by
        match id, h2 with
        | j + 1, _ => simp [processSubword, h1]
      simp [processSubwords, hw, ih _ _ h3]


theorem splitWsGo_ne_nil : ∀ (st : Option (List Char)) (cs : List Char),
    splitWsGo st cs ≠ [] := by
  intro st cs
  induction cs generalizing st with
  | nil => cases st <;> simp [splitWsGo]
  | cons c rest ih =>
    cases st with
    | some cur =>
      simp only [splitWsGo]
      split
      · simp
      · exact ih _
    | none =>
      simp only [splitWsGo]
      split
      · exact ih _
      · exact ih _

theorem splitWs_ne_nil (cs : List Char) : splitWs cs ≠ [] :=
  splitWsGo_ne_nil _ cs

theorem getSubwords_ne_nil (has : List Char → Bool) (w : List Char) :
    getSubwords has w ≠ [] := by
  unfold getSubwords
  split
  · simp
  · rename_i hlen
    match w, hlen with
    | [], h => exact absurd (by simp) h
    | c :: rest, _ => simp [getSubwordsLoop]

theorem allKnown_head_size (v : Vocab) (ws : List (List Char)) (hne : ws ≠ [])
    (h : allKnown v ws = true) : 1 ≤ vocabSize v := by
  match ws, hne with
  | w :: ws, _ =>
    simp only [allKnown, Bool.and_eq_true, List.all_eq_true] at h
    obtain ⟨hall, _⟩ := h
    obtain ⟨t, ht⟩ :=
      List.exists_mem_of_ne_nil _ (getSubwords_ne_nil (vocabHas v) w)
    have hmem := hall t ht
    match v with
    | [] => simp [vocabHas, vocabGet] at hmem
    | _ :: _ => simp [vocabSize]

theorem tokenizeWords_master (ws : List (List Char)) :
    ∀ v : Vocab, allKnown v ws = true → 1 ≤ vocabSize v →
      (∀ x, vocabHas (tokenizeWords v ws).1 x = vocabHas v x) ∧
      vocabSize (tokenizeWords v ws).1 = vocabSize v ∧
      (∀ sws ids, seenAll v sws ids →
        seenAll (tokenizeWords v ws).1 sws ids) ∧
      tokenizeWords (tokenizeWords v ws).1 ws =
        ((tokenizeWords v ws).1, (tokenizeWords v ws).2.1, 0) := by
  induction ws with
  | nil =>
    intro v _ _
    exact ⟨fun x => rfl, rfl, fun sws ids h => h, rfl⟩
  | cons w ws ih =>
    intro v hknown hv
    simp only [allKnown, Bool.and_eq_true, List.all_eq_true] at hknown
    obtain ⟨hall, hrest⟩ := hknown
    simp only [tokenizeWords]
    set sws := getSubwords (vocabHas v) w with hsws
    set r1 := processSubwords v sws with hr1
    set r2 := tokenizeWords r1.1 ws with hr2
    have hA2 : ∀ x, vocabHas r1.1 x = vocabHas v x :=
      processSubwords_has sws v hall
    have hA3 : vocabSize r1.1 = vocabSize v :=
      processSubwords_size sws v hall
    have hA4 : seenAll r1.1 sws r1.2.1 :=
      processSubwords_establish sws v hall hv
    obtain ⟨hB1, hB2, hB3, hB4⟩ := ih r1.1 hrest (hA3 ▸ hv)
    rw [← hr2] at hB1 hB2 hB3 hB4
    refine ⟨fun x => (hB1 x).trans (hA2 x), hB2.trans hA3, ?_, ?_⟩
    · intro sws2 ids h
      exact hB3 _ _ (seenAll_mono v r1.1
        (fun t id h1 h2 => processSubwords_stable sws v t id h1 h2) sws2 ids h)
    · have hfun : vocabHas r2.1 = vocabHas v :=
        funext fun x => (hB1 x).trans (hA2 x)
      simp only [tokenizeWords, hfun, ← hsws]
      have hq1 : processSubwords r2.1 sws = (r2.1, r1.2.1, 0) :=
        seenAll_run sws r2.1 r1.2.1 (hB3 sws r1.2.1 hA4)
      rw [hq1]
      simp only [hB4]

/-- C3: on a text all of whose subwords are already registered in the
vocabulary, `tokenizeText` is idempotent: a second call returns the same
token-id sequence as the first, performs no `createTokenVocabulary`
persistence call, and leaves the vocabulary (hence its size) unchanged. -/
theorem tokenizeText_idempotent (v : Vocab) (text : List Char)
    (h : allKnownText v text = true) :
    tokenizeText (tokenizeText v text).1 text =
      ((tokenizeText v text).1, (tokenizeText v text).2.1, 0) := by
  have hv : 1 ≤ vocabSize v :=
    allKnown_head_size v _ (splitWs_ne_nil (toLowerList text)) h
  exact (tokenizeWords_master (splitWs (toLowerList text)) v h hv).2.2.2

/-- Witness for C3 at the vocabulary {"hi" ↦ 1} and the text "hi". -/
theorem tokenizeText_idempotent_witness :
    allKnownText [(['h', 'i'], 1)] "hi".toList = true ∧
    tokenizeText (tokenizeText [(['h', 'i'], 1)] "hi".toList).1 "hi".toList =
      ((tokenizeText [(['h', 'i'], 1)] "hi".toList).1,
       (tokenizeText [(['h', 'i'], 1)] "hi".toList).2.1, 0) :=
  ⟨by decide, tokenizeText_idempotent [(['h', 'i'], 1)] "hi".toList (by decide)⟩

/-- C4: evaluation at the failing input.  Starting from an empty vocabulary,
tokenizing "ab" registers the subword "ab" under id 0; tokenizing "ab" again
hits the source's falsy `if (!tokenId)` check, re-registers "ab" under id 1
(the current size) and persists a second vocabulary row, so the id assigned
to "ab" changes from 0 to 1 and the resulting id set {1} is no longer the
dense range 0..size-1 — contradicting the claimed invariant that an id, once
assigned, is never reassigned. -/
theorem token_id_zero_reassigned :
    vocabGet (tokenizeText [] "ab".toList).1 ['a', 'b'] = some 0 ∧
    vocabGet (tokenizeText (tokenizeText [] "ab".toList).1 "ab".toList).1
      ['a', 'b'] = some 1 ∧
    (tokenizeText (tokenizeText [] "ab".toList).1 "ab".toList).2.2 = 1 ∧
    vocabSize (tokenizeText (tokenizeText [] "ab".toList).1 "ab".toList).1
      = 1 := by
  decide

/-! ## Loss lemmas -/

theorem splitSp_ne_nil (cs : List Char) : splitSp cs ≠ [] := by
  induction cs with
  | nil => simp [splitSp]
  | cons c rest ih =>
    simp only [splitSp]
    split
    · simp
    · cases h : splitSp rest with
      | nil => exact absurd h ih
      | cons w ws => simp

theorem lossLoop_nonneg (mt tt : List (List Char)) :
    ∀ n, 0 ≤ lossLoop mt tt n := by
  intro n
  induction n with
  | zero => simp [lossLoop]
  | succ n ih =>
    simp only [lossLoop]
    have : (0 : ℚ) ≤ if mt.getD n [] ≠ tt.getD n [] then 1 else 0 := by
      split <;> norm_num
    linarith

theorem lossLoop_le (mt tt : List (List Char)) :
    ∀ n, lossLoop mt tt n ≤ n := by
  intro n
  induction n with
  | zero => simp [lossLoop]
  | succ n ih =>
    simp only [lossLoop]
    have : (if mt.getD n [] ≠ tt.getD n [] then (1 : ℚ) else 0) ≤ 1 := by
      split <;> norm_num
    push_cast
    linarith

theorem lossLoop_self (mt : List (List Char)) : ∀ n, lossLoop mt mt n = 0 := by
  intro n
  induction n with
  | zero => simp [lossLoop]
  | succ n ih => simp [lossLoop, ih]

theorem getD_succ_tail (l : List (List Char)) (i : Nat) :
    l.getD (i + 1) [] = l.tail.getD i [] := by
  cases l <;> simp

theorem lossLoop_shift (mt tt : List (List Char)) :
    ∀ n, lossLoop mt tt (n + 1) =
      (if mt.getD 0 [] ≠ tt.getD 0 [] then (1 : ℚ) else 0) +
        lossLoop mt.tail tt.tail n := by
  intro n
  induction n with
  | zero => simp [lossLoop, add_comm]
  | succ n ih =>
    calc lossLoop mt tt (n + 2)
        = lossLoop mt tt (n + 1) +
            (if mt.getD (n + 1) [] ≠ tt.getD (n + 1) [] then (1 : ℚ) else 0) := by
          simp [lossLoop]
      _ = (if mt.getD 0 [] ≠ tt.getD 0 [] then (1 : ℚ) else 0) +
            (lossLoop mt.tail tt.tail n +
              (if mt.tail.getD n [] ≠ tt.tail.getD n [] then (1 : ℚ) else 0)) := by
          rw [ih, getD_succ_tail, getD_succ_tail]
          ring
      _ = _ := by simp [lossLoop]

theorem mism_nil_left_loss (ys : List (List Char)) :
    mism [] ys = lossLoop [] ys ys.length := by
  induction ys with
  | nil => simp [mism, lossLoop]
  | cons b t ih =>
    rw [List.length_cons, lossLoop_shift]
    simp only [mism, List.tail_cons, List.tail_nil]
    rw [ih]
    congr 1
    simp [ne_comm]

theorem mism_nil_right_loss (xs : List (List Char)) :
    mism xs [] = lossLoop xs [] xs.length := by
  induction xs with
  | nil => simp [mism, lossLoop]
  | cons a t ih =>
    rw [List.length_cons, lossLoop_shift]
    simp only [mism, List.tail_cons, List.tail_nil]
    rw [ih]
    simp

theorem mism_eq_lossLoop : ∀ xs ys : List (List Char),
    mism xs ys = lossLoop xs ys (max xs.length ys.length) := by
  intro xs
  induction xs with
  | nil =>
    intro ys
    simpa using mism_nil_left_loss ys
  | cons a xs ih =>
    intro ys
    cases ys with
    | nil => simpa using mism_nil_right_loss (a :: xs)
    | cons b t =>
      have hmax : max (a :: xs).length (b :: t).length =
          max xs.length t.length + 1 := by
        simp [Nat.succ_max_succ]
      rw [hmax, lossLoop_shift]
      simp only [mism, List.tail_cons]
      rw [ih t]
      simp

/-- C2 counterexample: `calculateLoss` splits on single space characters, not
on whitespace runs.  On "a  b" (two spaces) against "a b" the source yields
2/3 while the specification's whitespace-split Hamming distance yields 0. -/
theorem calculateLoss_not_whitespace_split :
    calculateLoss "a  b".toList "a b".toList ≠
      specLoss "a  b".toList "a b".toList := by
  have h1 : splitSp "a  b".toList = [['a'], [], ['b']] := by decide
  have h2 : splitSp "a b".toList = [['a'], ['b']] := by decide
  have h3 : splitWs "a  b".toList = [['a'], ['b']] := by decide
  have h4 : splitWs "a b".toList = [['a'], ['b']] := by decide
  simp only [calculateLoss, specLoss, hammingPadded, h1, h2, h3, h4]
  norm_num [lossLoop, mism]

/-- C2 (amended): `calculateLoss` equals the word-level Hamming distance of
the two strings split at every single space character (consecutive spaces
yield empty tokens), with the shorter sequence padded by empty tokens and
the mismatch count divided by the longer length; its value lies in [0,1];
for every non-empty text x, the loss of x against itself is 0; and the loss
of "a b c" against "" is 1. -/
theorem calculateLoss_hamming (mo gt x : List Char) (hx : x ≠ []) :
    calculateLoss mo gt = hammingPadded (splitSp mo) (splitSp gt) ∧
    0 ≤ calculateLoss mo gt ∧ calculateLoss mo gt ≤ 1 ∧
    calculateLoss x x = 0 ∧
    calculateLoss "a b c".toList "".toList = 1 := by
  have hlen : 1 ≤ max (splitSp mo).length (splitSp gt).length := by
    have h0 : 0 < (splitSp mo).length := List.length_pos.2 (splitSp_ne_nil mo)
    omega
  have hq : (0 : ℚ) < ((max (splitSp mo).length (splitSp gt).length : ℕ) : ℚ) :=
    Nat.cast_pos.mpr (by omega)
  refine ⟨?_, ?_, ?_, ?_, ?_⟩
  · simp only [calculateLoss, hammingPadded]
    rw [mism_eq_lossLoop]
  · simp only [calculateLoss]
    exact div_nonneg (lossLoop_nonneg _ _ _) hq.le
  · simp only [calculateLoss]
    rw [div_le_one hq]
    exact lossLoop_le _ _ _
  · simp only [calculateLoss]
    rw [lossLoop_self]
    exact zero_div _
  · have h5 : splitSp "a b c".toList = [['a'], ['b'], ['c']] := by decide
    have h6 : splitSp "".toList = [[]] := by decide
    simp only [calculateLoss, h5, h6]
    norm_num [lossLoop]

/-- Witness for C2 (amended) at the concrete texts "a", "b" and "x y". -/
theorem calculateLoss_hamming_witness :
    ("x y".toList ≠ []) ∧ calculateLoss "x y".toList "x y".toList = 0 :=
  ⟨by decide,
   (calculateLoss_hamming "a".toList "b".toList "x y".toList (by decide)).2.2.2.1⟩

/-! ## Orchestrator lemmas -/

theorem except_bind_ok {α β ε : Type} (a : α) (f : α → Except ε β) :
    (Except.ok a >>= f) = f a := rfl

theorem except_bind_err {α β ε : Type} (e : ε) (f : α → Except ε β) :
    ((Except.error e : Except ε α) >>= f) = Except.error e := rfl

theorem except_pure {α ε : Type} (a : α) :
    (pure a : Except ε α) = Except.ok a := rfl

theorem except_throw {α ε : Type} (e : ε) :
    (throw e : Except ε α) = Except.error e := rfl

theorem cycleList_length (c n : Nat) : (cycleList c n).length = n := by
  induction n generalizing c with
  | zero => rfl
  | succ n ih => simp [cycleList, ih]

theorem runState_eq {a1 a2 : List Reflection} {b1 b2 d1 d2 : Nat}
    {c1 c2 : Bool} (ha : a1 = a2) (hb : b1 = b2) (hc : c1 = c2)
    (hd : d1 = d2) :
    (⟨a1, b1, c1, d1⟩ : RunState) = ⟨a2, b2, c2, d2⟩ := by
  subst ha hb hc hd; rfl

/-- The persistence operations issued directly by the reflection cycle all
succeed under this schedule. -/
def orchOk (F : StOp → Bool) : Prop :=
  F .getReflections = false ∧ F .getRecentInsights = false ∧
  F .createReflection = false ∧ F .createMemoryInsight = false

/-- Whether the training step's internal persistence attempt fails (and is
therefore swallowed). -/
def tDelta (F : StOp → Bool) : Nat :=
  match trainStepInner F with
  | .ok _ => 0
  | .error _ => 1

theorem trainStep_eq (F : StOp → Bool) (st : RunState) :
    trainStep F st = ⟨st.refl, st.insights, st.content, st.swallowed + tDelta F⟩ := by
  unfold trainStep tDelta
  cases trainStepInner F <;> simp

theorem perform_ok (F : StOp → Bool) (hF : orchOk F) (noise : ℚ) (c : Nat)
    (st : RunState) :
    performReflectionCycle F noise c st =
      .ok ⟨st.refl ++ specGroup noise c, st.insights + 1, st.content,
           st.swallowed⟩ := by
  obtain ⟨h1, h2, h3, h4⟩ := hF
  by_cases hn : noise > 0 <;>
    simp [performReflectionCycle, emitReflection, specGroup, h1, h2, h3, h4, hn,
      except_bind_ok]

theorem runCycles_none (F : StOp → Bool) (hF : orchOk F) (noise : ℚ) :
    ∀ (cs : List Nat) (st : RunState),
      runCycles F noise none cs st =
        .ok ⟨st.refl ++ cs.flatMap (specGroup noise),
             st.insights + cs.length, st.content,
             st.swallowed + cs.length * tDelta F⟩ := by
  intro cs
  induction cs with
  | nil => intro st; simp [runCycles, except_pure]
  | cons c cs ih =>
    intro st
    simp only [runCycles, if_true]
    rw [perform_ok F hF]
    simp only [except_bind_ok]
    rw [trainStep_eq, ih]
    refine congrArg Except.ok (runState_eq ?_ ?_ rfl ?_)
    · simp [List.flatMap_cons, List.append_assoc]
    · simp only [List.length_cons]; ring
    · simp only [List.length_cons]; ring

theorem runCycles_stop (F : StOp → Bool) (hF : orchOk F) (noise : ℚ) (k : Nat) :
    ∀ (n c : Nat) (st : RunState),
      runCycles F noise (some k) (cycleList c n) st =
        .ok ⟨st.refl ++ (cycleList c (min n (k - c))).flatMap (specGroup noise),
             st.insights + min n (k - c), st.content,
             st.swallowed + min n (k - c) * tDelta F⟩ := by
  intro n
  induction n with
  | zero => intro c st; simp [cycleList, runCycles, except_pure]
  | succ n ih =>
    intro c st
    by_cases hc : c < k
    · have hm : min (n + 1) (k - c) = min n (k - (c + 1)) + 1 := by omega
      simp only [cycleList, runCycles, decide_eq_true hc, if_true]
      rw [perform_ok F hF]
      simp only [except_bind_ok]
      rw [trainStep_eq, ih (c + 1)]
      rw [hm]
      simp only [cycleList, List.flatMap_cons]
      refine congrArg Except.ok (runState_eq ?_ ?_ rfl ?_)
      · simp [List.append_assoc]
      · ring
      · ring
    · have hm : min (n + 1) (k - c) = 0 := by omega
      simp [cycleList, runCycles, decide_eq_false hc, hm, except_pure]

/-! ## Claim theorems about the orchestrator -/

/-- C1: a run on an existing session with N cycles that is never stopped and
meets no persistence failure persists exactly the specified reflection
trace: one cycle-0 user_input reflection, then for each cycle c in 1..N, in
order, one analysis, one memory_recall, one strategy (c = 1) or refinement
(c > 1), and one noise_injection iff noiseLevel > 0 — together with one
memory insight per cycle and a completed final content row. -/
theorem reflection_trace (N : Nat) (noise : ℚ) :
    startReflectionLoop (fun _ => false) true N noise none =
      .ok ⟨specRun N noise, N, true, 0⟩ := by
  have horch : orchOk (fun _ => false) := ⟨rfl, rfl, rfl, rfl⟩
  have hdelta : tDelta (fun _ => false) = 0 := rfl
  simp only [startReflectionLoop, Bool.not_true, Bool.false_eq_true,
    if_false, emitReflection, except_bind_ok]
  rw [runCycles_none _ horch]
  simp [specRun, hdelta, except_pure, except_bind_ok, cycleList_length]

/-- C6: a stop request flips a flag observed only at the top-of-cycle
checks; if it is first observed at the check for cycle k, exactly the cycles
1..min N (k-1) run — each to completion — and finalization still persists a
completed content row.  In particular a 5-cycle run stopped after cycle 2
(observed at the top of cycle 3 or 4) performs at most 2 further cycles and
still yields a completed GeneratedContent row. -/
theorem stop_request_cycle_boundary (N k : Nat) (noise : ℚ) :
    (startReflectionLoop (fun _ => false) true N noise (some k) =
      .ok ⟨specStopRun N noise k, min N (k - 1), true, 0⟩) ∧
    (3 ≤ k → k ≤ 4 →
      ∃ st, startReflectionLoop (fun _ => false) true 5 noise (some k) =
          .ok st ∧ 2 ≤ st.insights ∧ st.insights ≤ 2 + 2 ∧
          st.content = true) := by
  have horch : orchOk (fun _ => false) := ⟨rfl, rfl, rfl, rfl⟩
  have hdelta : tDelta (fun _ => false) = 0 := rfl
  have hgen : ∀ M, startReflectionLoop (fun _ => false) true M noise (some k) =
      .ok ⟨specStopRun M noise k, min M (k - 1), true, 0⟩ := by
    intro M
    simp only [startReflectionLoop, Bool.not_true, Bool.false_eq_true,
      if_false, emitReflection, except_bind_ok]
    rw [runCycles_stop _ horch]
    simp [specStopRun, hdelta, except_pure, except_bind_ok, cycleList_length]
  refine ⟨hgen N, fun h3 h4 => ?_⟩
  refine ⟨⟨specStopRun 5 noise k, min 5 (k - 1), true, 0⟩, hgen 5, ?_, ?_, rfl⟩
  · simp; omega
  · simp; omega

/-- Witness for C6's stop scenario at N = 5, k = 3, noiseLevel = 15. -/
theorem stop_request_cycle_boundary_witness :
    ∃ st, startReflectionLoop (fun _ => false) true 5 15 (some 3) =
        .ok st ∧ 2 ≤ st.insights ∧ st.insights ≤ 2 + 2 ∧ st.content = true :=
  (stop_request_cycle_boundary 5 3 15).2 (by omega) (by omega)

/-- C7 counterexample: with a schedule on which every
`storage.createTrainingBatch` append fails, a 2-cycle run still completes
successfully — the caller sees `.ok`, both cycles' reflections and the
completed content row are persisted, and the two persistence failures were
swallowed inside the training step — contradicting the claim that every
persistence failure during a cycle aborts the cycle and propagates. -/
theorem trainStep_persistence_failure_swallowed :
    startReflectionLoop (fun op => op == .createTrainingBatch) true 2 0 none =
      .ok ⟨specRun 2 0, 2, true, 2⟩ := by
  have horch : orchOk (fun op => op == .createTrainingBatch) :=
    ⟨rfl, rfl, rfl, rfl⟩
  have hdelta : tDelta (fun op => op == .createTrainingBatch) = 1 := rfl
  have hcr : ((fun op => op == StOp.createTrainingBatch) StOp.createReflection)
      = false := rfl
  have hgr : ((fun op => op == StOp.createTrainingBatch) StOp.getReflections)
      = false := rfl
  have hgc : ((fun op => op == StOp.createTrainingBatch)
      StOp.createGeneratedContent) = false := rfl
  simp only [startReflectionLoop, Bool.not_true, Bool.false_eq_true,
    if_false, emitReflection, hcr, except_bind_ok]
  rw [runCycles_none _ horch]
  simp [specRun, hdelta, hgr, hgc, except_pure, except_bind_ok,
    cycleList_length]

/-- C7 (amended): failures of the persistence operations issued directly by
the reflection cycle or by finalization abort the run at that point and
propagate to the loop's caller, with only the rows persisted so far kept and
no completed content row.  Shown for every such operation class: at cycle
level (for every cycle index and state), a failing read of previous
reflections, read of recent insights, reflection append, or memory-insight
append aborts that cycle at the failing operation; at loop level, a failing
reflections read (whether hit at the top of cycle 1 or, for a 0-cycle run,
in finalization), recent-insights read, reflection append (hit at the very
first append, the cycle-0 user_input persist), memory-insight append, and
content append each surface as an error to the caller.  By contrast, under
any schedule whose failures are confined to the training step's persistence
operations (token vocabulary, weight snapshots, training batch, learning
metrics), the run completes with the full reflection trace and a completed
content row as if no failure occurred. -/
theorem persistence_error_handling (N : Nat) (noise : ℚ) (F : StOp → Bool)
    (hN : 1 ≤ N)
    (h1 : F .getReflections = false) (h2 : F .getRecentInsights = false)
    (h3 : F .createReflection = false) (h4 : F .createMemoryInsight = false)
    (h5 : F .createGeneratedContent = false) :
    (∀ (c : Nat) (st : RunState),
      performReflectionCycle (fun op => op == .getReflections) noise c st =
        .error st ∧
      performReflectionCycle (fun op => op == .getRecentInsights) noise c st =
        .error st ∧
      performReflectionCycle (fun op => op == .createReflection) noise c st =
        .error st ∧
      performReflectionCycle (fun op => op == .createMemoryInsight) noise c st =
        .error ⟨st.refl ++ specGroup noise c, st.insights, st.content,
                st.swallowed⟩) ∧
    (∀ M, startReflectionLoop (fun op => op == .getReflections) true M noise
        none = .error ⟨[⟨0, .user_input⟩], 0, false, 0⟩) ∧
    (startReflectionLoop (fun op => op == .getRecentInsights) true N noise
      none = .error ⟨[⟨0, .user_input⟩], 0, false, 0⟩) ∧
    (∀ M, startReflectionLoop (fun op => op == .createReflection) true M noise
        none = .error ⟨[], 0, false, 0⟩) ∧
    (startReflectionLoop (fun op => op == .createMemoryInsight) true N noise
      none = .error ⟨⟨0, .user_input⟩ :: specGroup noise 1, 0, false, 0⟩) ∧
    (∀ M, startReflectionLoop (fun op => op == .createGeneratedContent) true M
        noise none = .error ⟨specRun M noise, M, false, 0⟩) ∧
    (startReflectionLoop F true N noise none =
      .ok ⟨specRun N noise, N, true, N * tDelta F⟩) := by
  refine ⟨?_, ?_, ?_, ?_, ?_, ?_, ?_⟩
  · intro c st
    refine ⟨?_, ?_, ?_, ?_⟩
    · have hb : (StOp.getReflections == StOp.getReflections) = true := rfl
      simp [performReflectionCycle, hb, except_throw, except_bind_err]
    · have hb1 : (StOp.getReflections == StOp.getRecentInsights) = false := rfl
      have hb2 : (StOp.getRecentInsights == StOp.getRecentInsights) = true :=
        rfl
      simp [performReflectionCycle, hb1, hb2, except_throw, except_bind_ok,
        except_bind_err, except_pure]
    · have hb1 : (StOp.getReflections == StOp.createReflection) = false := rfl
      have hb2 : (StOp.getRecentInsights == StOp.createReflection) = false :=
        rfl
      have hb3 : (StOp.createReflection == StOp.createReflection) = true := rfl
      simp [performReflectionCycle, emitReflection, hb1, hb2, hb3,
        except_throw, except_bind_ok, except_bind_err, except_pure]
    · have hb1 : (StOp.getReflections == StOp.createMemoryInsight) = false :=
        rfl
      have hb2 : (StOp.getRecentInsights == StOp.createMemoryInsight) = false :=
        rfl
      have hb3 : (StOp.createReflection == StOp.createMemoryInsight) = false :=
        rfl
      have hb4 : (StOp.createMemoryInsight == StOp.createMemoryInsight) = true :=
        rfl
      by_cases hnz : noise > 0 <;>
        simp [performReflectionCycle, emitReflection, specGroup, hb1, hb2,
          hb3, hb4, hnz, except_throw, except_bind_ok, except_bind_err,
          except_pure]
  · intro M
    have hbc : (StOp.createReflection == StOp.getReflections) = false := rfl
    have hbg : (StOp.getReflections == StOp.getReflections) = true := rfl
    cases M with
    | zero =>
      simp [startReflectionLoop, emitReflection, cycleList, runCycles, hbc,
        hbg, except_bind_ok, except_bind_err, except_throw, except_pure]
    | succ n =>
      simp [startReflectionLoop, emitReflection, cycleList, runCycles,
        performReflectionCycle, hbc, hbg, except_bind_ok, except_bind_err,
        except_throw, except_pure]
  · match N, hN with
    | n + 1, _ =>
      have hbc : (StOp.createReflection == StOp.getRecentInsights) = false :=
        rfl
      have hbg : (StOp.getReflections == StOp.getRecentInsights) = false := rfl
      have hbr : (StOp.getRecentInsights == StOp.getRecentInsights) = true :=
        rfl
      simp [startReflectionLoop, emitReflection, cycleList, runCycles,
        performReflectionCycle, hbc, hbg, hbr, except_bind_ok,
        except_bind_err, except_throw, except_pure]
  · intro M
    have hbc : (StOp.createReflection == StOp.createReflection) = true := rfl
    simp [startReflectionLoop, emitReflection, hbc, except_bind_err,
      except_throw, except_bind_ok, except_pure]
  · match N, hN with
    | n + 1, _ =>
      have hb0 : (StOp.createReflection == StOp.createMemoryInsight) = false :=
        rfl
      have hb1 : (StOp.getReflections == StOp.createMemoryInsight) = false :=
        rfl
      have hb2 : (StOp.getRecentInsights == StOp.createMemoryInsight) = false :=
        rfl
      have hb4 : (StOp.createMemoryInsight == StOp.createMemoryInsight) = true :=
        rfl
      by_cases hnz : noise > 0 <;>
        simp [startReflectionLoop, emitReflection, cycleList, runCycles,
          performReflectionCycle, specGroup, hb0, hb1, hb2, hb4, hnz,
          except_bind_ok, except_bind_err, except_throw, except_pure]
  · intro M
    have horch : orchOk (fun op => op == .createGeneratedContent) :=
      ⟨rfl, rfl, rfl, rfl⟩
    have hdelta : tDelta (fun op => op == .createGeneratedContent) = 0 := rfl
    have hcr : ((fun op => op == StOp.createGeneratedContent)
        StOp.createReflection) = false := rfl
    have hgr : ((fun op => op == StOp.createGeneratedContent)
        StOp.getReflections) = false := rfl
    have hgc : ((fun op => op == StOp.createGeneratedContent)
        StOp.createGeneratedContent) = true := rfl
    simp only [startReflectionLoop, Bool.not_true, Bool.false_eq_true,
      if_false, emitReflection, hcr, except_bind_ok]
    rw [runCycles_none _ horch]
    simp [specRun, hdelta, hgr, hgc, except_pure, except_bind_ok,
      except_bind_err, except_throw, cycleList_length]
  · have horch : orchOk F := ⟨h1, h2, h3, h4⟩
    simp only [startReflectionLoop, Bool.not_true, Bool.false_eq_true,
      if_false, emitReflection, h3, except_bind_ok]
    rw [runCycles_none _ horch]
    simp [specRun, h1, h5, except_pure, except_bind_ok, cycleList_length]

/-- Witness for C7 (amended) at N = 1, noiseLevel = 0 and the schedule that
fails only the training-batch append. -/
theorem persistence_error_handling_witness :
    startReflectionLoop (fun op => op == StOp.createTrainingBatch) true 1 0
        none =
      .ok ⟨specRun 1 0, 1, true, 1 * tDelta (fun op => op == StOp.createTrainingBatch)⟩ :=
  (persistence_error_handling 1 0 (fun op => op == .createTrainingBatch)
    (by omega) rfl rfl rfl rfl rfl).2.2.2.2.2.2

/-- C8 counterexample: starting a loop while one is already active
(isGenerating = true, currentCycle = 2) is not rejected — the entry succeeds
and resets the shared engine state of the running loop. -/
theorem second_loop_not_rejected :
    startEntry true ⟨2, true⟩ = .ok ⟨0, true⟩ := rfl

/-- C8 (amended): the entry of `startReflectionLoop` guards only session
existence: for an existing session it always succeeds — even when a loop is
already active — and unconditionally resets the shared state (currentCycle
to 0, isGenerating to true), so a second loop overwrites the state of the
running one; for a missing session it throws the structured error
"Session not found". -/
theorem startEntry_behavior (ctl : EngineCtl) :
    startEntry true ctl = .ok ⟨0, true⟩ ∧
      startEntry false ctl = .error "Session not found" :=
  ⟨rfl, rfl⟩

/-! ## Bias update evaluation -/

/-- C5: evaluation at the failing input.  `calculateGradients` wraps the
bias gradients in a one-row matrix, but the bias loop of `updateWeights`
indexes that matrix as if it were flat: for a layer with biases [1, 2],
learning rate 1/1000 and loss 1/2 (noise source constantly 1/2), bias 0
becomes NaN (the row array is coerced by JS multiplication) and bias 1 is
left unchanged — the same happens at loss 0, where the claim requires all
biases unchanged but bias 0 still becomes NaN.  The third conjunct shows the
claimed element-wise update would have changed bias 1. -/
theorem bias_update_not_elementwise :
    updateLayerBiases (1 / 1000) [1, 2]
        (calcGradB (fun _ => 1 / 2) (1 / 2) [1, 2]) = [none, some 2] ∧
    updateLayerBiases (1 / 1000) [1, 2]
        (calcGradB (fun _ => 1 / 2) 0 [1, 2]) = [none, some 2] ∧
    (2 : ℚ) - 1 / 1000 * (1 / 2 * (1 / 2) * (1 / 100)) ≠ 2 := by
  refine ⟨?_, ?_, by norm_num⟩ <;>
    norm_num [updateLayerBiases, calcGradB, biasGradAt, jsMulNum,
      List.enum, List.enumFrom]

end AdaptiveMindscape
